import Mathlib

/-!
Verification development for the client-side session/data-synchronization
core of the group-expense-tracking application (src/src/context/AppContext.tsx).

The TypeScript code is shallowly embedded: React state becomes an explicit
`AppState` record, each stateful handler becomes a function from state (plus
the outcome of remote calls, passed as explicit parameters) to state, and
JavaScript objects used as string-keyed maps become association lists kept in
insertion order (matching the enumeration order of non-numeric-like string
keys in JavaScript objects and of `Map`). Monetary amounts and timestamps are
modelled as `Int`.
-/

/-- User profile (src: `@/types` User, fields as used in AppContext). -/
structure User where
  id : String
  displayName : String
  email : String
  photoURL : String
  bankAccount : Option String
deriving Repr, DecidableEq

/-- One split of a transaction: a per-user signed amount. -/
structure Split where
  userId : String
  amount : Int
deriving Repr, DecidableEq

/-- A transaction as held in local state (all fields present after normalization). -/
structure Transaction where
  id : String
  fundId : String
  description : String
  amount : Int
  paidBy : String
  splits : List Split
  createdAt : Int
  date : Int
deriving Repr, DecidableEq

/-- A transaction as fetched from the remote store, before normalization in
`loadFundTransactions`: every field may be missing. A `none` amount models a
non-numeric value (the code tests `typeof transaction.amount === 'number'`),
and a `none` splits models a non-array value. -/
structure RawTransaction where
  id : Option String
  fundId : Option String
  description : Option String
  amount : Option Int
  paidBy : Option String
  splits : Option (List Split)
  createdAt : Option Int
  date : Option Int
deriving Repr, DecidableEq

/-- A shared fund. -/
structure Fund where
  id : String
  name : String
  description : String
  members : List String
  createdAt : Int
  createdBy : String
deriving Repr, DecidableEq

/-- Minimal identity carried by an authentication-state event
(FirebaseUser as consumed by `convertFirebaseUser`). -/
structure AuthEventUser where
  uid : String
  displayName : Option String
  email : Option String
  photoURL : Option String
deriving Repr, DecidableEq

/-- Outcome of the remote `syncUserWithFirestore` call. -/
inductive SyncResult where
  | ok (u : User)
  | err
deriving Repr, DecidableEq

/-- Outcome of a remote mutation (`deleteFundService` etc.); an error carries
the optional `Error.message` used to build the toast text. -/
inductive RemoteResult where
  | ok
  | err (msg : Option String)
deriving Repr, DecidableEq

/-- The React state owned by `AppProvider`, plus the persisted
`sessionStorage` snapshot and the list of toast notifications raised so far. -/
structure AppState where
  currentUser : Option User
  funds : List Fund
  transactions : List Transaction
  selectedFund : Option Fund
  isAuthLoading : Bool
  authInitialized : Bool
  isLoading : Bool
  users : List (String × User)
  hasInitiallyLoaded : Bool
  sessionSnapshot : Option User
  toasts : List String
deriving Repr, DecidableEq

/-- JavaScript `x || d` on an optional string: missing, or present but empty
(falsy), falls back to the default. -/
def jsOrStr (x : Option String) (d : String) : String :=
  match x with
  | some v => if v = "" then d else v
  | none => d

/-- JavaScript `x || d` on an optional number: missing, or present but zero
(falsy), falls back to the default. -/
def jsOrNum (x : Option Int) (d : Int) : Int :=
  match x with
  | some v => if v = 0 then d else v
  | none => d

/-- First-match lookup in a string-keyed association list (JS `obj[key]`). -/
def lookupUser : List (String × User) → String → Option User
  | [], _ => none
  | p :: ps, k => if p.1 = k then some p.2 else lookupUser ps k

/-- JS `obj[key] = value` on a string-keyed object: overwrite in place when the
key is present, append at the end of insertion order otherwise. -/
def setUser (m : List (String × User)) (k : String) (v : User) : List (String × User) :=
  if m.any (fun p => p.1 = k) then m.map (fun p => if p.1 = k then (k, v) else p)
  else m ++ [(k, v)]

/-- `convertFirebaseUser` (AppContext.tsx lines 73-80). -/
def convertFirebaseUser (fb : AuthEventUser) : User :=
  { id := fb.uid
  , displayName := jsOrStr fb.displayName "User"
  , email := jsOrStr fb.email ""
  , photoURL := jsOrStr fb.photoURL ""
  , bankAccount := none }

/-- The fixed value `getUserById` returns for a falsy id (lines 155-163). -/
def unknownUser : User :=
  { id := "unknown", displayName := "Unknown User", email := "", photoURL := ""
  , bankAccount := none }

/-- The placeholder `getUserById` builds for an unloaded user (lines 176-185). -/
def placeholderUser (id : String) : User :=
  { id := id, displayName := "User " ++ id.take 4, email := "", photoURL := ""
  , bankAccount := none }

/-- `getUserById` (AppContext.tsx lines 153-186): falsy id gives the fixed
unknown user; otherwise the current user when the id matches; otherwise the
cached entry; otherwise the placeholder. -/
def getUserById (s : AppState) (id : String) : User :=
  if id = "" then unknownUser
  else
    match s.currentUser with
    | some cu =>
      if cu.id = id then cu
      else
        match lookupUser s.users id with
        | some u => u
        | none => placeholderUser id
    | none =>
      match lookupUser s.users id with
      | some u => u
      | none => placeholderUser id

/-- Insertion-order de-duplication, as `[...new Set(userIds)]`: keeps the
first occurrence of each element. -/
def dedupFirst (l : List String) : List String :=
  l.foldl (fun acc x => if acc.contains x then acc else acc ++ [x]) []

/-- The filter applied in `loadUsers` (lines 121-125): drop falsy ids, the
current user's id, and ids already loaded in the cache. -/
def filteredIds (s : AppState) (userIds : List String) : List String :=
  (dedupFirst userIds).filter (fun id =>
    !(id == "") &&
    (match s.currentUser with
     | some cu => !(id == cu.id)
     | none => true) &&
    (lookupUser s.users id).isNone)

/-- `loadUsers` (AppContext.tsx lines 117-150). The remote store is a function
from id to the user stored there (`getUsersByIds` returns exactly the
requested ids that exist). The second component records the batched request
actually issued (`none` when the call resolves with no remote fetch). -/
def loadUsers (s : AppState) (remote : String → Option User) (userIds : List String) :
    AppState × Option (List String) :=
  if userIds = [] then (s, none)
  else
    let uniqueIds := filteredIds s userIds
    if uniqueIds = [] then (s, none)
    else
      let results := uniqueIds.filterMap (fun id => (remote id).map (fun u => (id, u)))
      let newUsers := results.foldl (fun m p => setUser m p.1 p.2) s.users
      ({ s with users := newUsers, isLoading := false }, some uniqueIds)

/-- The last value a key receives over a list of (id, user) assignments: the
entry JS `forEach`-assignment leaves in the object for that key. -/
def lastValueU : List (String × User) → String → Option User
  | [], _ => none
  | p :: ps, k =>
    match lastValueU ps k with
    | some v => some v
    | none => if p.1 = k then some p.2 else none

/-- The (id, user) pairs a batched `getUsersByIds` call returns for the
filtered ids: exactly the requested ids that exist remotely. -/
def usersResults (s : AppState) (remote : String → Option User)
    (userIds : List String) : List (String × User) :=
  (filteredIds s userIds).filterMap (fun id => (remote id).map (fun u => (id, u)))

/-- The ids of a fund list. -/
def fundIds (l : List Fund) : List String := l.map Fund.id

/-- One `uniqueFundsMap.set(fund.id, fund)` step of `loadUserFunds` (lines
260-267): JS `Map.set` overwrites the value in place when the key is present
and appends at the end of insertion order otherwise. The map is keyed by
`fund.id`, so the key is derivable from the value and the map is a fund list. -/
def insertFund (acc : List Fund) (f : Fund) : List Fund :=
  if acc.any (fun g => g.id = f.id) then acc.map (fun g => if g.id = f.id then f else g)
  else acc ++ [f]

/-- The merge performed by `loadUserFunds` (lines 260-270): existing funds are
inserted first, then the fetched funds overwrite/extend, and the result is the
map's values in insertion order. -/
def mergeFunds (existing fetched : List Fund) : List Fund :=
  (existing ++ fetched).foldl insertFund []

/-- The last fund with a given id in a list (the value JS `Map.set` leaves for
that key after inserting the whole list). -/
def lastWithId : List Fund → String → Option Fund
  | [], _ => none
  | f :: fs, k =>
    match lastWithId fs k with
    | some g => some g
    | none => if f.id = k then some f else none

/-- Pointwise replacement of each fund of `m` by the last same-id fund of
`l`, when one exists: the shape `l.foldl insertFund m` takes when every id of
`l` is already present in `m`. -/
def updateAll (m l : List Fund) : List Fund :=
  m.map (fun g =>
    match lastWithId l g.id with
    | some x => x
    | none => g)

/-- `loadUserFunds` (AppContext.tsx lines 253-284). The fetch outcome is
passed explicitly: `none` models a failed `getUserFunds` call (the catch
branch), `some userFunds` a successful one. -/
def loadUserFunds (s : AppState) (userId : String) (fetched : Option (List Fund)) :
    AppState :=
  if userId = "" then s
  else
    match fetched with
    | some userFunds =>
      { s with funds := mergeFunds s.funds userFunds
             , hasInitiallyLoaded := true
             , isLoading := false }
    | none =>
      { s with toasts := s.toasts ++ ["Không thể tải danh sách quỹ"]
             , hasInitiallyLoaded := true
             , isLoading := false }

/-- Field normalization applied to each fetched transaction in
`loadFundTransactions` (lines 301-315). -/
def processTransaction (fundId : String) (now : Int) (t : RawTransaction) : Transaction :=
  { id := jsOrStr t.id "unknown"
  , fundId := jsOrStr t.fundId fundId
  , description := jsOrStr t.description "Giao dịch"
  , amount := match t.amount with | some v => v | none => 0
  , paidBy := jsOrStr t.paidBy ""
  , splits := match t.splits with | some l => l | none => []
  , createdAt := jsOrNum t.createdAt now
  , date := jsOrNum t.date (jsOrNum t.createdAt now) }

/-- The effective date used by the sort comparator (`a.date || a.createdAt`,
lines 319-320). -/
def effDate (t : Transaction) : Int :=
  if t.date = 0 then t.createdAt else t.date

/-- One step of a stable descending insertion sort on effective date. -/
def insertByEffDate (t : Transaction) : List Transaction → List Transaction
  | [] => [t]
  | u :: us => if effDate t < effDate u then u :: insertByEffDate t us else t :: u :: us

/-- The result of `processedTransactions.sort((a, b) => dateB - dateA)`:
JavaScript `Array.prototype.sort` is stable and the comparator is a total
preorder on the effective date, so the sorted output is the unique stable
descending reordering, here computed by insertion sort. -/
def sortByEffDateDesc (l : List Transaction) : List Transaction :=
  l.foldr insertByEffDate []

/-- `loadFundTransactions` (AppContext.tsx lines 287-331). The fetched raw
list is passed explicitly; `now` stands for `Date.now()`. -/
def loadFundTransactions (s : AppState) (fundId : String)
    (fetched : List RawTransaction) (now : Int) : AppState :=
  if fundId = "" then s
  else if fetched = [] then { s with transactions := [], isLoading := false }
  else
    { s with
        transactions := sortByEffDateDesc (fetched.map (processTransaction fundId now))
      , isLoading := false }

/-- `deleteFund` (AppContext.tsx lines 354-379): requires a signed-in user,
issues the remote deletion first, and on success filters the fund out of
local state (also clearing a matching selection); an error is surfaced as a
toast and reported through the boolean result. -/
def deleteFund (s : AppState) (fundId : String) (remote : RemoteResult) :
    AppState × Bool :=
  match s.currentUser with
  | none => (s, false)
  | some _ =>
    match remote with
    | RemoteResult.ok =>
      let s1 := { s with funds := s.funds.filter (fun f => !(f.id == fundId)) }
      let s2 :=
        if (match s1.selectedFund with
            | some sf => sf.id == fundId
            | none => false) then
          { s1 with selectedFund := none }
        else s1
      ({ s2 with toasts := s2.toasts ++ ["Quỹ đã được xóa thành công!"]
               , isLoading := false }, true)
    | RemoteResult.err msg =>
      ({ s with toasts := s.toasts ++ [match msg with
                                        | some m => m
                                        | none => "Không thể xóa quỹ"]
              , isLoading := false }, false)

/-- `addSplit`: the body of the inner loop of `calculateBalances` (lines
463-468). A falsy (absent or zero) entry is first zero-initialized, then the
split amount is added; a fresh key enters at the end of insertion order. -/
def addSplit (balances : List (String × Int)) (sp : Split) : List (String × Int) :=
  if balances.any (fun p => p.1 = sp.userId) then
    balances.map (fun p => if p.1 = sp.userId then (p.1, p.2 + sp.amount) else p)
  else balances ++ [(sp.userId, sp.amount)]

/-- First-match lookup in the balances object. -/
def lookupBalance : List (String × Int) → String → Option Int
  | [], _ => none
  | p :: ps, k => if p.1 = k then some p.2 else lookupBalance ps k

/-- `calculateBalances` (AppContext.tsx lines 455-475): filter the stored
transactions by fund id, then accumulate every split into a running total per
user id; `Object.entries` enumerates the accumulator in insertion order. -/
def calculateBalances (transactions : List Transaction) (fundId : String) :
    List (String × Int) :=
  let fundTransactions := transactions.filter (fun t => t.fundId = fundId)
  fundTransactions.foldl (fun balances t => t.splits.foldl addSplit balances) []

/-- The sum of the amounts a given user receives over a list of splits. -/
def sumFor (splits : List Split) (uid : String) : Int :=
  ((splits.filter (fun sp => sp.userId = uid)).map Split.amount).sum

/-- The net signed total of a user over the splits of a fund's transactions,
as the specification describes the accumulation. -/
def userTotal (transactions : List Transaction) (fundId uid : String) : Int :=
  sumFor (((transactions.filter (fun t => t.fundId = fundId)).map Transaction.splits).flatten) uid

/-- The user ids appearing in at least one split of a transaction of the fund. -/
def splitUserIds (transactions : List Transaction) (fundId : String) : List String :=
  ((((transactions.filter (fun t => t.fundId = fundId)).map Transaction.splits).flatten).map
    Split.userId)

/-- The signed-out branch of the `onAuthStateChange` callback (AppContext.tsx
lines 546-556), preceded by the unconditional `setAuthInitialized(true)` of
line 505. -/
def handleSignedOut (s : AppState) : AppState :=
  { s with authInitialized := true
         , currentUser := none
         , funds := []
         , transactions := []
         , users := []
         , hasInitiallyLoaded := false
         , sessionSnapshot := none
         , isAuthLoading := false }

/-- The authenticated branch of the `onAuthStateChange` callback
(AppContext.tsx lines 503-545), preceded by the unconditional
`setAuthInitialized(true)`. The outcome of `syncUserWithFirestore` is passed
explicitly; the boolean result records whether a fund reload was triggered
(`loadUserFunds` called). The `currentUser` the guard at line 509 reads is
NOT live state: the callback is created inside the mount-only effect and
closes over the render-scope constant, so it is passed here as the separate
`closureCurrentUser` parameter, distinct from the live state `s` that the
`setCurrentUser`/`sessionStorage` writes act on. In the cached-match branch
the verification sync's result is discarded and its errors are swallowed, so
the state does not depend on it. -/
def handleAuthenticated (s : AppState) (closureCurrentUser : Option User)
    (hasRestoredFromCache : Bool) (fb : AuthEventUser) (sync : SyncResult) :
    AppState × Bool :=
  let s1 := { s with authInitialized := true }
  let isCachedMatch :=
    (match closureCurrentUser with
     | some cu => cu.id == fb.uid
     | none => false) && hasRestoredFromCache
  if isCachedMatch then
    ({ s1 with isAuthLoading := false }, false)
  else
    match sync with
    | SyncResult.ok fullUser =>
      ({ s1 with currentUser := some fullUser
               , sessionSnapshot := some fullUser
               , isAuthLoading := false }, !hasRestoredFromCache)
    | SyncResult.err =>
      let basicUser := convertFirebaseUser fb
      ({ s1 with currentUser := some basicUser
               , sessionSnapshot := some basicUser
               , isAuthLoading := false }, false)

/-- The authenticated branch as it actually runs: the effect that registers
the callback has an empty dependency list (line 573), so the callback closes
over the first render's `currentUser`, which is the initial `null` — the
`setCurrentUser` calls rebind later renders' constants, never this closure.
The closure-captured value is therefore always `none`. -/
def handleAuthenticatedProgram (s : AppState) (hasRestoredFromCache : Bool)
    (fb : AuthEventUser) (sync : SyncResult) : AppState × Bool :=
  handleAuthenticated s none hasRestoredFromCache fb sync

/-- The user the full-sync path installs as `currentUser` and persists: the
synced profile on success, the minimal converted identity on failure. -/
def syncResultUser (fb : AuthEventUser) (sync : SyncResult) : User :=
  match sync with
  | SyncResult.ok u => u
  | SyncResult.err => convertFirebaseUser fb

/-- Split rule tag for transaction drafts. -/
inductive SplitMode where
  | EQUAL
  | PERCENTAGE
  | EXACT
deriving Repr, DecidableEq

/-- A participant of a transaction draft with its percentage share (only
meaningful in PERCENTAGE mode). -/
structure Participant where
  userId : String
  percentage : Int
deriving Repr, DecidableEq

/-- A transaction draft as passed to the split calculator. -/
structure TransactionDraft where
  amount : Int
  paidBy : String
  splitMode : SplitMode
  participants : List Participant
  manualSplits : List Split
deriving Repr, DecidableEq

/-- JavaScript `Math.round(x / y)` for integer x and positive integer y:
floor of x / y + 1/2. -/
def jsRound (x y : Int) : Int := Int.ediv (2 * x + y) (2 * y)

/-- Add a remainder to the first split whose user matches. -/
def addToFirstMatching : List Split → String → Int → List Split
  | [], _, _ => []
  | sp :: ss, uid, r =>
    if sp.userId = uid then { sp with amount := sp.amount + r } :: ss
    else sp :: addToFirstMatching ss uid r

/-- Modelled from the spec: `calculateTransactionSplits` is imported from
`@/utils/transactionUtils`, whose source is not part of the provided files;
this definition follows spec section 4.2 word by word. EQUAL: divide the
amount evenly, assigning the integer remainder to the first participant.
PERCENTAGE: each share is `round(amount * pct / 100)`, with the rounding
remainder absorbed by `paidBy`'s entry if present, else the first
participant. EXACT: pass the manual splits through unchanged. -/
def calculateTransactionSplits (d : TransactionDraft) : List Split :=
  match d.splitMode with
  | SplitMode.EQUAL =>
    match d.participants with
    | [] => []
    | p0 :: rest =>
      let n : Int := Int.ofNat (rest.length + 1)
      let base := Int.ediv d.amount n
      let remainder := d.amount - base * n
      { userId := p0.userId, amount := base + remainder }
        :: rest.map (fun p => { userId := p.userId, amount := base })
  | SplitMode.PERCENTAGE =>
    match d.participants with
    | [] => []
    | p0 :: _ =>
      let shares := d.participants.map
        (fun p => ({ userId := p.userId
                   , amount := jsRound (d.amount * p.percentage) 100 } : Split))
      let total := (shares.map Split.amount).sum
      let remainder := d.amount - total
      if shares.any (fun sh => sh.userId = d.paidBy) then
        addToFirstMatching shares d.paidBy remainder
      else
        addToFirstMatching shares p0.userId remainder
  | SplitMode.EXACT => d.manualSplits

/-- An empty base state, used by the concrete scenarios below. -/
def emptyState : AppState :=
  { currentUser := none
  , funds := []
  , transactions := []
  , selectedFund := none
  , isAuthLoading := true
  , authInitialized := false
  , isLoading := false
  , users := []
  , hasInitiallyLoaded := false
  , sessionSnapshot := none
  , toasts := [] }

/-- The transaction of the balance-calculation scenario of the spec. -/
def exampleTx : Transaction :=
  { id := "t1", fundId := "f1", description := "", amount := 0, paidBy := ""
  , splits := [{ userId := "A", amount := -50 }, { userId := "B", amount := 50 }]
  , createdAt := 0, date := 0 }

/-- The EQUAL-split scenario draft of the spec: amount 100 over three
participants. -/
def equalDraft100 : TransactionDraft :=
  { amount := 100, paidBy := "u1", splitMode := SplitMode.EQUAL
  , participants := [{ userId := "u1", percentage := 0 }
                    , { userId := "u2", percentage := 0 }
                    , { userId := "u3", percentage := 0 }]
  , manualSplits := [] }

/-- A concrete user profile used by the concrete scenarios. -/
def userA : User :=
  { id := "userA", displayName := "Alice", email := "a@x", photoURL := ""
  , bankAccount := none }

/-- A cached user with an empty display name (the remote store does not
guarantee non-empty display names). -/
def c3BadUser : User :=
  { id := "abcd", displayName := "", email := "", photoURL := "", bankAccount := none }

/-- A state whose cache holds a user with an empty display name. -/
def c3BadState : AppState :=
  { emptyState with users := [("abcd", c3BadUser)] }

/-- A concrete fund used by the concrete scenarios. -/
def fundF1 : Fund :=
  { id := "f1", name := "Fund 1", description := "", members := ["A", "B"]
  , createdAt := 0, createdBy := "A" }

/-- A stale local copy of the same fund, to be overwritten on merge. -/
def fundF1Old : Fund :=
  { id := "f1", name := "Fund 1 old", description := "", members := ["A"]
  , createdAt := 0, createdBy := "A" }

/-- A locally-held fund absent from the remote response. -/
def fundF2 : Fund :=
  { id := "f2", name := "Fund 2", description := "", members := ["A"]
  , createdAt := 0, createdBy := "A" }

/-- A signed-in state holding two funds, one of them stale. -/
def c5State : AppState :=
  { emptyState with currentUser := some userA, funds := [fundF1Old, fundF2] }

/-- A signed-in state holding one fund, for the deletion scenario. -/
def c6State : AppState :=
  { emptyState with currentUser := some userA, funds := [fundF1] }

/-- A raw fetched transaction: date 5, created first. -/
def c7raw1 : RawTransaction :=
  { id := some "t1", fundId := some "f1", description := some "x", amount := some 10
  , paidBy := some "A", splits := some [], createdAt := some 1, date := some 5 }

/-- A raw fetched transaction with the same date as `c7raw1` but a later
creation time, fetched second. -/
def c7raw2 : RawTransaction :=
  { id := some "t2", fundId := some "f1", description := some "y", amount := some 20
  , paidBy := some "B", splits := some [], createdAt := some 2, date := some 5 }

/-- A state already holding a transaction, for the replacement scenario. -/
def c7State : AppState :=
  { emptyState with transactions := [exampleTx] }

/-- A concrete authentication event matching `userA`. -/
def fbEventA : AuthEventUser :=
  { uid := "userA", displayName := some "Alice", email := some "a@x", photoURL := none }

/-- A concrete authentication event for a different identity. -/
def fbEventB : AuthEventUser :=
  { uid := "userB", displayName := some "Bob", email := some "b@x", photoURL := none }

/-- A state holding `userA` as the identity restored from the cache. -/
def c8State : AppState :=
  { emptyState with currentUser := some userA, sessionSnapshot := some userA }

/-- The fuller profile a successful `syncUserWithFirestore` returns for the
same identity key as `userA` (fields such as `bankAccount` filled in). -/
def userAFresh : User :=
  { id := "userA", displayName := "Alice", email := "a@x", photoURL := ""
  , bankAccount := some "123" }

/-- A remote user store holding exactly the current identity `userA`. -/
def remoteOnlyA : String → Option User :=
  fun id => if id = "userA" then some userA else none

/-- A signed-in state with an empty user cache, for the batch-load scenarios. -/
def c9State : AppState :=
  { emptyState with currentUser := some userA }

/-- A concrete user existing remotely for the batch-load scenarios. -/
def userB : User :=
  { id := "userB", displayName := "Bob", email := "b@x", photoURL := ""
  , bankAccount := none }

/-- A remote user store holding `userA` and `userB`. -/
def remoteAB : String → Option User :=
  fun id => if id = "userA" then some userA else if id = "userB" then some userB else none

/-! ## Helper lemmas: the balances accumulator -/

theorem lookupBalance_isSome (bal : List (String × Int)) (k : String) :
    (lookupBalance bal k).isSome = bal.any (fun p => p.1 = k) := by
  induction bal with
  | nil => rfl
  | cons p ps ih => by_cases h : p.1 = k <;> simp [lookupBalance, h, ih]

theorem any_key_iff (bal : List (String × Int)) (k : String) :
    bal.any (fun p => p.1 = k) = true ↔ k ∈ bal.map Prod.fst := by
  rw [List.any_eq_true]
  constructor
  · rintro ⟨p, hp, he⟩
    exact List.mem_map.mpr ⟨p, hp, by simpa using he⟩
  · intro hm
    obtain ⟨p, hp, he⟩ := List.mem_map.mp hm
    exact ⟨p, hp, by simpa using he⟩

theorem lookupBalance_eq_none (bal : List (String × Int)) (k : String) :
    lookupBalance bal k = none ↔ k ∉ bal.map Prod.fst := by
  rw [← any_key_iff, ← lookupBalance_isSome]
  cases lookupBalance bal k <;> simp

theorem lookup_map_addKey (bal : List (String × Int)) (uid : String) (a : Int) (k : String) :
    lookupBalance (bal.map (fun p => if p.1 = uid then (p.1, p.2 + a) else p)) k =
      if uid = k then (lookupBalance bal k).map (fun v => v + a)
      else lookupBalance bal k := by
  induction bal with
  | nil => by_cases h : uid = k <;> simp [lookupBalance, h]
  | cons p ps ih =>
    by_cases hpu : p.1 = uid
    · by_cases hpk : p.1 = k
      · simp [lookupBalance, hpu, hpk, hpu ▸ hpk]
      · have huk : uid ≠ k := fun he => hpk (hpu.trans he)
        simp [lookupBalance, hpu, hpk, huk, ih]
    · by_cases hpk : p.1 = k
      · have huk : uid ≠ k := fun he => hpu (hpk.trans he.symm)
        simp [lookupBalance, hpu, hpk, huk, Ne.symm huk]
      · simp [lookupBalance, hpu, hpk, ih]

theorem lookupBalance_append_some (l1 l2 : List (String × Int)) (k : String) (v : Int)
    (h : lookupBalance l1 k = some v) : lookupBalance (l1 ++ l2) k = some v := by
  induction l1 with
  | nil => simp [lookupBalance] at h
  | cons p ps ih =>
    by_cases hp : p.1 = k
    · simp_all [lookupBalance, hp]
    · simp only [List.cons_append, lookupBalance, hp, if_false] at h ⊢
      exact ih h

theorem lookupBalance_append_none (l1 l2 : List (String × Int)) (k : String)
    (h : lookupBalance l1 k = none) : lookupBalance (l1 ++ l2) k = lookupBalance l2 k := by
  induction l1 with
  | nil => simp
  | cons p ps ih =>
    by_cases hp : p.1 = k
    · simp [lookupBalance, hp] at h
    · simp only [List.cons_append, lookupBalance, hp, if_false] at h ⊢
      exact ih h

theorem addSplit_lookup (bal : List (String × Int)) (sp : Split) (k : String) :
    lookupBalance (addSplit bal sp) k =
      if sp.userId = k then some ((lookupBalance bal k).getD 0 + sp.amount)
      else lookupBalance bal k := by
  by_cases h : bal.any (fun p => p.1 = sp.userId)
  · rw [addSplit, if_pos h, lookup_map_addKey]
    by_cases hk : sp.userId = k
    · subst hk
      have hs : (lookupBalance bal sp.userId).isSome := by
        rw [lookupBalance_isSome]; exact h
      obtain ⟨v, hv⟩ := Option.isSome_iff_exists.mp hs
      simp [hv]
    · simp [hk]
  · rw [addSplit, if_neg h]
    have hn : lookupBalance bal sp.userId = none := by
      rw [lookupBalance_eq_none, ← any_key_iff]
      simpa using h
    by_cases hk : sp.userId = k
    · subst hk
      rw [lookupBalance_append_none _ _ _ hn, hn]
      simp [lookupBalance]
    · cases ho : lookupBalance bal k with
      | some v =>
        rw [lookupBalance_append_some _ _ _ _ ho]
        simp [hk, ho]
      | none =>
        rw [lookupBalance_append_none _ _ _ ho]
        simp [lookupBalance, hk, ho]

theorem addSplit_keys (bal : List (String × Int)) (sp : Split) :
    (addSplit bal sp).map Prod.fst =
      if bal.any (fun p => p.1 = sp.userId) then bal.map Prod.fst
      else bal.map Prod.fst ++ [sp.userId] := by
  by_cases h : bal.any (fun p => p.1 = sp.userId)
  · rw [addSplit, if_pos h, if_pos h, List.map_map]
    apply List.map_congr_left
    intro p hp
    by_cases hc : p.1 = sp.userId <;> simp [hc]
  · rw [addSplit, if_neg h, if_neg h]
    simp

theorem addSplit_keys_mem (bal : List (String × Int)) (sp : Split) (k : String) :
    k ∈ (addSplit bal sp).map Prod.fst ↔ k ∈ bal.map Prod.fst ∨ k = sp.userId := by
  rw [addSplit_keys]
  by_cases h : bal.any (fun p => p.1 = sp.userId)
  · have huid : sp.userId ∈ bal.map Prod.fst := (any_key_iff bal sp.userId).mp h
    simp only [if_pos h]
    constructor
    · exact Or.inl
    · rintro (hk | rfl)
      · exact hk
      · exact huid
  · simp [h]

theorem addSplit_nodup (bal : List (String × Int)) (sp : Split)
    (h : (bal.map Prod.fst).Nodup) : ((addSplit bal sp).map Prod.fst).Nodup := by
  rw [addSplit_keys]
  by_cases ha : bal.any (fun p => p.1 = sp.userId)
  · simpa [ha] using h
  · have hni : sp.userId ∉ bal.map Prod.fst := by
      rw [← any_key_iff]; simpa using ha
    simp only [if_neg ha, List.nodup_append, List.nodup_cons]
    refine ⟨h, by simp, ?_⟩
    intro x hx
    simp only [List.mem_singleton]
    intro he; exact hni (he ▸ hx)

theorem foldl_addSplit_nodup (splits : List Split) (bal : List (String × Int))
    (h : (bal.map Prod.fst).Nodup) :
    ((splits.foldl addSplit bal).map Prod.fst).Nodup := by
  induction splits generalizing bal with
  | nil => exact h
  | cons sp rest ih => exact ih _ (addSplit_nodup _ _ h)

theorem sumFor_cons (sp : Split) (rest : List Split) (k : String) :
    sumFor (sp :: rest) k = (if sp.userId = k then sp.amount else 0) + sumFor rest k := by
  by_cases h : sp.userId = k <;> simp [sumFor, List.filter_cons, h]

theorem foldl_addSplit_lookup (splits : List Split) (bal : List (String × Int)) (k : String) :
    lookupBalance (splits.foldl addSplit bal) k =
      if k ∈ bal.map Prod.fst ∨ k ∈ splits.map Split.userId
      then some ((lookupBalance bal k).getD 0 + sumFor splits k)
      else none := by
  induction splits generalizing bal with
  | nil =>
    by_cases h : k ∈ bal.map Prod.fst
    · have hs : (lookupBalance bal k).isSome := by
        rw [lookupBalance_isSome, any_key_iff]; exact h
      obtain ⟨v, hv⟩ := Option.isSome_iff_exists.mp hs
      simp [h, hv, sumFor]
    · have hn : lookupBalance bal k = none := (lookupBalance_eq_none bal k).mpr h
      simp [h, hn]
  | cons sp rest ih =>
    rw [List.foldl_cons, ih, addSplit_lookup, sumFor_cons]
    by_cases h1 : sp.userId = k
    · subst h1
      have hmem : sp.userId ∈ (addSplit bal sp).map Prod.fst :=
        (addSplit_keys_mem bal sp sp.userId).mpr (Or.inr rfl)
      have hcond : sp.userId ∈ bal.map Prod.fst ∨ sp.userId ∈ (sp :: rest).map Split.userId :=
        Or.inr (by simp)
      simp only [if_pos (Or.inl hmem), if_pos hcond, eq_self_iff_true, if_true,
        Option.getD_some]
      congr 1
      ring
    · have hke : k ∈ (addSplit bal sp).map Prod.fst ↔ k ∈ bal.map Prod.fst := by
        rw [addSplit_keys_mem]
        constructor
        · rintro (hb | rfl)
          · exact hb
          · exact absurd rfl h1
        · exact Or.inl
      have hme : k ∈ (sp :: rest).map Split.userId ↔ k ∈ rest.map Split.userId := by
        simp only [List.map_cons, List.mem_cons]
        constructor
        · rintro (he | hr)
          · exact absurd he.symm h1
          · exact hr
        · exact Or.inr
      simp only [if_neg h1, hke, hme, zero_add]

theorem foldl_splits_flatten (fts : List Transaction) (bal : List (String × Int)) :
    fts.foldl (fun balances t => t.splits.foldl addSplit balances) bal =
      ((fts.map Transaction.splits).flatten).foldl addSplit bal := by
  induction fts generalizing bal with
  | nil => rfl
  | cons t rest ih => simp [List.foldl_append, ih]

theorem calculateBalances_eq_flat (ts : List Transaction) (f : String) :
    calculateBalances ts f =
      (((ts.filter (fun t => t.fundId = f)).map Transaction.splits).flatten).foldl addSplit [] :=
  foldl_splits_flatten _ []

/-- Claim C1: for every stored transaction list and fund identifier,
`calculateBalances` filters transactions by fund id and accumulates each
split's signed amount per user id: the result holds exactly one entry per
user appearing in at least one split of a transaction of the fund (explicit
zeros retained, absent users omitted), carrying that user's net total; on the
spec's example it yields A ↦ -50, B ↦ 50. -/
theorem calculateBalances_spec (ts : List Transaction) (f uid : String) :
    ((calculateBalances ts f).map Prod.fst).Nodup
  ∧ (uid ∈ splitUserIds ts f ↔
      ∃ t, t ∈ ts ∧ t.fundId = f ∧ ∃ sp, sp ∈ t.splits ∧ sp.userId = uid)
  ∧ lookupBalance (calculateBalances ts f) uid =
      (if uid ∈ splitUserIds ts f then some (userTotal ts f uid) else none)
  ∧ calculateBalances [exampleTx] "f1" = [("A", -50), ("B", 50)] := by
  refine ⟨?_, ?_, ?_, by decide⟩
  · rw [calculateBalances_eq_flat]
    exact foldl_addSplit_nodup _ [] (by simp)
  · simp only [splitUserIds, List.mem_map, List.mem_flatten, List.mem_filter]
    constructor
    · rintro ⟨sp, ⟨l, ⟨⟨t, ⟨ht, hf⟩, rfl⟩, hsp⟩⟩, rfl⟩
      exact ⟨t, ht, by simpa using hf, sp, hsp, rfl⟩
    · rintro ⟨t, ht, hf, sp, hsp, rfl⟩
      exact ⟨sp, ⟨t.splits, ⟨t, ⟨ht, by simpa using hf⟩, rfl⟩, hsp⟩, rfl⟩
  · rw [calculateBalances_eq_flat, foldl_addSplit_lookup]
    simp only [List.map_nil, List.not_mem_nil, false_or]
    rw [show ((((ts.filter (fun t => t.fundId = f)).map Transaction.splits).flatten).map
        Split.userId) = splitUserIds ts f from rfl]
    by_cases h : uid ∈ splitUserIds ts f
    · rw [if_pos h, if_pos h]
      simp [lookupBalance, userTotal]
    · rw [if_neg h, if_neg h]

/-! ## Helper lemmas: the split calculator -/

theorem addToFirstMatching_sum (l : List Split) (uid : String) (r : Int)
    (h : uid ∈ l.map Split.userId) :
    ((addToFirstMatching l uid r).map Split.amount).sum
      = (l.map Split.amount).sum + r := by
  induction l with
  | nil => simp at h
  | cons sp ss ih =>
    by_cases hs : sp.userId = uid
    · simp only [addToFirstMatching, hs, if_true, List.map_cons, List.sum_cons]
      ring
    · have h2 := h
      rw [List.map_cons, List.mem_cons] at h2
      have hmem : uid ∈ ss.map Split.userId := by
        rcases h2 with he | hm
        · exact absurd he.symm hs
        · exact hm
      simp only [addToFirstMatching, hs, if_false, List.map_cons, List.sum_cons, ih hmem]
      ring

theorem sum_const_splits (l : List Participant) (c : Int) :
    ((l.map (fun p => ({ userId := p.userId, amount := c } : Split))).map Split.amount).sum
      = l.length * c := by
  induction l with
  | nil => simp
  | cons p ps ih =>
    simp only [List.map_cons, List.sum_cons, ih, List.length_cons]
    push_cast
    ring

/-- Claim C2: for every transaction draft with a non-empty participant list,
the computed splits sum exactly to the draft amount in EQUAL and PERCENTAGE
modes; in EQUAL mode the division remainder goes to the first participant,
so amount 100 over three participants yields 34/33/33. The split calculator
itself is modelled from the spec (its source file is not provided). -/
theorem calculateTransactionSplits_sum (d : TransactionDraft)
    (hne : d.participants ≠ [])
    (hmode : d.splitMode = SplitMode.EQUAL ∨ d.splitMode = SplitMode.PERCENTAGE) :
    ((calculateTransactionSplits d).map Split.amount).sum = d.amount
  ∧ calculateTransactionSplits equalDraft100 =
      [{ userId := "u1", amount := 34 }, { userId := "u2", amount := 33 }
      , { userId := "u3", amount := 33 }] := by
  refine ⟨?_, by decide⟩
  rcases hp : d.participants with _ | ⟨p0, rest⟩
  · exact absurd hp hne
  rcases hmode with hm | hm
  · simp only [calculateTransactionSplits, hm, hp, List.map_cons, List.sum_cons,
      sum_const_splits, Int.ofNat_eq_natCast]
    push_cast
    ring
  · simp only [calculateTransactionSplits, hm, hp]
    set shares := (p0 :: rest).map
      (fun p => ({ userId := p.userId
                 , amount := jsRound (d.amount * p.percentage) 100 } : Split)) with hshares
    by_cases hpaid : shares.any (fun sh => sh.userId = d.paidBy)
    · rw [if_pos hpaid]
      have hmem : d.paidBy ∈ shares.map Split.userId := by
        rw [List.any_eq_true] at hpaid
        obtain ⟨sh, hsh, he⟩ := hpaid
        exact List.mem_map.mpr ⟨sh, hsh, by simpa using he⟩
      rw [addToFirstMatching_sum _ _ _ hmem]
      ring
    · rw [if_neg hpaid]
      have hmem : p0.userId ∈ shares.map Split.userId := by
        rw [hshares]
        simp
      rw [addToFirstMatching_sum _ _ _ hmem]
      ring

/-- Witness for Claim C2 at the spec's EQUAL scenario. -/
theorem calculateTransactionSplits_sum_witness :
    ((calculateTransactionSplits equalDraft100).map Split.amount).sum
      = equalDraft100.amount :=
  (calculateTransactionSplits_sum equalDraft100 (by decide) (Or.inl rfl)).1

/-! ## Helper lemmas: the user cache -/

theorem lookupUser_mem (l : List (String × User)) (k : String) (v : User)
    (h : lookupUser l k = some v) : ∃ p, p ∈ l ∧ p.1 = k ∧ p.2 = v := by
  induction l with
  | nil => simp [lookupUser] at h
  | cons p ps ih =>
    by_cases hp : p.1 = k
    · simp only [lookupUser, hp, if_true, Option.some.injEq] at h
      exact ⟨p, List.mem_cons_self p ps, hp, h⟩
    · simp only [lookupUser, hp, if_false] at h
      obtain ⟨q, hq, hk, hv⟩ := ih h
      exact ⟨q, List.mem_cons_of_mem _ hq, hk, hv⟩

theorem placeholderUser_displayName_ne (id : String) :
    (placeholderUser id).displayName ≠ "" := by
  simp only [placeholderUser]
  intro h
  have hlen : ("User " ++ id.take 4).length = 0 := by rw [h]; rfl
  rw [String.length_append] at hlen
  have h5 : ("User ").length = 5 := rfl
  omega

/-- Claim C3 (amended): for every non-empty id, `getUserById` returns the
current user on an id match, else the cached entry, else the deterministic
placeholder; and the result has a non-empty display name whenever the current
identity and all cached entries do (the placeholder branch unconditionally). -/
theorem getUserById_spec (s : AppState) (id : String) (hid : id ≠ "")
    (hcu : ∀ u, s.currentUser = some u → u.displayName ≠ "")
    (hcache : ∀ p, p ∈ s.users → (Prod.snd p).displayName ≠ "") :
    (∀ u, s.currentUser = some u → u.id = id → getUserById s id = u)
  ∧ ((∀ u, s.currentUser = some u → u.id ≠ id) →
      ∀ v, lookupUser s.users id = some v → getUserById s id = v)
  ∧ ((∀ u, s.currentUser = some u → u.id ≠ id) →
      lookupUser s.users id = none → getUserById s id = placeholderUser id)
  ∧ (getUserById s id).displayName ≠ "" := by
  refine ⟨?_, ?_, ?_, ?_⟩
  · intro u hu he
    simp [getUserById, hid, hu, he]
  · intro hnc v hv
    cases hcu2 : s.currentUser with
    | none => simp [getUserById, hid, hcu2, hv]
    | some u =>
      have hne : u.id ≠ id := hnc u hcu2
      simp [getUserById, hid, hcu2, hne, hv]
  · intro hnc hv
    cases hcu2 : s.currentUser with
    | none => simp [getUserById, hid, hcu2, hv]
    | some u =>
      have hne : u.id ≠ id := hnc u hcu2
      simp [getUserById, hid, hcu2, hne, hv]
  · cases hcu2 : s.currentUser with
    | none =>
      cases hv : lookupUser s.users id with
      | some v =>
        obtain ⟨p, hp, hk, hv2⟩ := lookupUser_mem _ _ _ hv
        have := hcache p hp
        simp only [getUserById, hid, if_false, hcu2, hv]
        exact hv2 ▸ this
      | none =>
        simp only [getUserById, hid, if_false, hcu2, hv]
        exact placeholderUser_displayName_ne id
    | some u =>
      by_cases he : u.id = id
      · simp only [getUserById, hid, if_false, hcu2, he, if_true]
        exact hcu u hcu2
      · cases hv : lookupUser s.users id with
        | some v =>
          obtain ⟨p, hp, hk, hv2⟩ := lookupUser_mem _ _ _ hv
          have := hcache p hp
          simp only [getUserById, hid, if_false, hcu2, he, hv]
          exact hv2 ▸ this
        | none =>
          simp only [getUserById, hid, if_false, hcu2, he, hv]
          exact placeholderUser_displayName_ne id

/-- Witness for Claim C3 at a concrete empty state and id. -/
theorem getUserById_spec_witness :
    getUserById emptyState "alice" = placeholderUser "alice"
  ∧ (getUserById emptyState "alice").displayName ≠ "" := by
  have h := getUserById_spec emptyState "alice" (by decide)
    (fun u hu => by simp [emptyState] at hu)
    (fun p hp => by simp [emptyState] at hp)
  exact ⟨h.2.2.1 (fun u hu => by simp [emptyState] at hu) rfl, h.2.2.2⟩

/-- Counterexample for Claim C3 as stated: at the empty id the code returns
the fixed unknown user, not the documented placeholder; and a cached entry
with an empty display name is returned verbatim, so the result's display
name is not always non-empty. -/
theorem getUserById_claim_cex :
    getUserById emptyState "" ≠ placeholderUser ""
  ∧ (getUserById c3BadState "abcd").displayName = "" := by
  exact ⟨by decide, by decide⟩

/-- Claim C10: for the empty (falsy) id, `getUserById` does not build the
"User " placeholder but returns the fixed unknown-user value, staying total
with a non-empty display name. -/
theorem getUserById_falsy_id (s : AppState) :
    getUserById s "" = unknownUser
  ∧ getUserById s "" ≠ placeholderUser ""
  ∧ (getUserById s "").displayName ≠ "" := by
  have h : getUserById s "" = unknownUser := by simp [getUserById]
  refine ⟨h, ?_, ?_⟩
  · rw [h]; decide
  · rw [h]; decide

/-- Claim C4: after an "unauthenticated" auth-state event, the current user
is null, funds, transactions and the users cache are empty, and the
persisted session snapshot is removed, regardless of prior state. -/
theorem handleSignedOut_clears (s : AppState) :
    (handleSignedOut s).currentUser = none
  ∧ (handleSignedOut s).funds = []
  ∧ (handleSignedOut s).transactions = []
  ∧ (handleSignedOut s).users = []
  ∧ (handleSignedOut s).sessionSnapshot = none :=
  ⟨rfl, rfl, rfl, rfl, rfl⟩

/-- Claim C6: with a signed-in user, `deleteFund` issues the remote deletion
first; on remote failure the local funds are left exactly as they were, a
toast notification is surfaced, and the call returns false; on success the
fund is filtered out of the local collection and the call returns true. -/
theorem deleteFund_spec (s : AppState) (fundId : String) (u : User) (m : Option String)
    (hcu : s.currentUser = some u) :
    ((deleteFund s fundId (RemoteResult.err m)).1.funds = s.funds
      ∧ (deleteFund s fundId (RemoteResult.err m)).2 = false
      ∧ (deleteFund s fundId (RemoteResult.err m)).1.toasts
          = s.toasts ++ [match m with
                         | some msg => msg
                         | none => "Không thể xóa quỹ"])
  ∧ ((deleteFund s fundId RemoteResult.ok).1.funds
        = s.funds.filter (fun f => !(f.id == fundId))
      ∧ (deleteFund s fundId RemoteResult.ok).2 = true) := by
  refine ⟨⟨?_, ?_, ?_⟩, ?_, ?_⟩ <;>
    simp [deleteFund, hcu, apply_ite (fun st => AppState.funds st)]

/-- Witness for Claim C6 at the spec's deletion scenario. -/
theorem deleteFund_spec_witness :
    (deleteFund c6State "f1" (RemoteResult.err none)).1.funds = c6State.funds
  ∧ (deleteFund c6State "f1" (RemoteResult.err none)).2 = false :=
  ⟨((deleteFund_spec c6State "f1" userA none rfl).1).1,
   ((deleteFund_spec c6State "f1" userA none rfl).1).2.1⟩

/-- Claim C8 (code bug): the cached-match fast path of the authenticated
branch is dead code. The callback closes over the first render's null
`currentUser`, so the guard at line 509 never fires: for every state,
restored-from-cache flag, event and sync outcome, the program takes the full
sync-and-replace path, installing the synced (or fallback) profile as the
current user and rewriting the persisted snapshot — including at the failing
input, where the event's uid equals the cache-restored identity's key and
the claim (matching the code's own comment) requires the current user and
the snapshot to be left untouched. -/
theorem handleAuthenticated_stale_closure (s : AppState) (hrfc : Bool)
    (fb : AuthEventUser) (sync : SyncResult) :
    ((handleAuthenticatedProgram s hrfc fb sync).1.currentUser
        = some (syncResultUser fb sync)
      ∧ (handleAuthenticatedProgram s hrfc fb sync).1.sessionSnapshot
        = some (syncResultUser fb sync))
  ∧ (c8State.currentUser = some userA ∧ userA.id = fbEventA.uid
      ∧ (handleAuthenticatedProgram c8State true fbEventA
          (SyncResult.ok userAFresh)).1.currentUser = some userAFresh
      ∧ (handleAuthenticatedProgram c8State true fbEventA
          (SyncResult.ok userAFresh)).1.sessionSnapshot = some userAFresh
      ∧ userAFresh ≠ userA) := by
  constructor
  · cases sync with
    | ok u => simp [handleAuthenticatedProgram, handleAuthenticated, syncResultUser]
    | err => simp [handleAuthenticatedProgram, handleAuthenticated, syncResultUser]
  · exact ⟨rfl, rfl, by decide, by decide, by decide⟩

/-! ## Helper lemmas: the fund merge -/

theorem fund_any_iff (acc : List Fund) (k : String) :
    acc.any (fun g => g.id = k) = true ↔ k ∈ fundIds acc := by
  rw [List.any_eq_true]
  constructor
  · rintro ⟨g, hg, he⟩
    exact List.mem_map.mpr ⟨g, hg, by simpa using he⟩
  · intro hm
    obtain ⟨g, hg, he⟩ := List.mem_map.mp hm
    exact ⟨g, hg, by simpa using he⟩

theorem insertFund_ids (acc : List Fund) (f : Fund) :
    fundIds (insertFund acc f) =
      if acc.any (fun g => g.id = f.id) then fundIds acc
      else fundIds acc ++ [f.id] := by
  by_cases h : acc.any (fun g => g.id = f.id)
  · rw [insertFund, if_pos h, if_pos h, fundIds, fundIds, List.map_map]
    apply List.map_congr_left
    intro g hg
    by_cases hc : g.id = f.id <;> simp [hc]
  · rw [insertFund, if_neg h, if_neg h]
    simp [fundIds]

theorem insertFund_nodup (acc : List Fund) (f : Fund) (h : (fundIds acc).Nodup) :
    (fundIds (insertFund acc f)).Nodup := by
  rw [insertFund_ids]
  by_cases ha : acc.any (fun g => g.id = f.id)
  · simpa [ha] using h
  · have hni : f.id ∉ fundIds acc := fun hm => ha ((fund_any_iff acc f.id).mpr hm)
    simp only [if_neg ha, List.nodup_append, List.nodup_cons]
    refine ⟨h, by simp, ?_⟩
    intro x hx
    simp only [List.mem_singleton]
    intro he
    exact hni (he ▸ hx)

theorem foldl_insertFund_nodup (l : List Fund) (acc : List Fund)
    (h : (fundIds acc).Nodup) : (fundIds (l.foldl insertFund acc)).Nodup := by
  induction l generalizing acc with
  | nil => exact h
  | cons f fs ih => exact ih _ (insertFund_nodup _ _ h)

theorem insertFund_ids_mem (acc : List Fund) (f : Fund) (k : String) :
    k ∈ fundIds (insertFund acc f) ↔ k ∈ fundIds acc ∨ k = f.id := by
  rw [insertFund_ids]
  by_cases h : acc.any (fun g => g.id = f.id)
  · have hm := (fund_any_iff acc f.id).mp h
    simp only [if_pos h]
    constructor
    · exact Or.inl
    · rintro (hk | rfl)
      · exact hk
      · exact hm
  · simp [h]

theorem foldl_insertFund_ids_mem (l : List Fund) (acc : List Fund) (k : String) :
    k ∈ fundIds (l.foldl insertFund acc) ↔ k ∈ fundIds acc ∨ k ∈ fundIds l := by
  induction l generalizing acc with
  | nil => simp [fundIds]
  | cons f fs ih =>
    rw [List.foldl_cons, ih, insertFund_ids_mem]
    simp only [fundIds, List.map_cons, List.mem_cons]
    tauto

theorem insertFund_mem_cases (acc : List Fund) (f g : Fund)
    (h : g ∈ insertFund acc f) : g = f ∨ (g ∈ acc ∧ g.id ≠ f.id) := by
  rw [insertFund] at h
  by_cases ha : acc.any (fun q => q.id = f.id)
  · rw [if_pos ha] at h
    obtain ⟨q, hq, he⟩ := List.mem_map.mp h
    by_cases hc : q.id = f.id
    · rw [if_pos hc] at he
      exact Or.inl he.symm
    · rw [if_neg hc] at he
      exact Or.inr ⟨he ▸ hq, he ▸ hc⟩
  · rw [if_neg ha] at h
    rcases List.mem_append.mp h with hm | hm
    · right
      refine ⟨hm, fun he => ?_⟩
      exact ha ((fund_any_iff acc f.id).mpr (List.mem_map.mpr ⟨g, hm, he⟩))
    · left
      simpa using hm

theorem insertFund_mem_keep (acc : List Fund) (f g : Fund)
    (hg : g ∈ acc) (hne : g.id ≠ f.id) : g ∈ insertFund acc f := by
  rw [insertFund]
  by_cases ha : acc.any (fun q => q.id = f.id)
  · rw [if_pos ha]
    exact List.mem_map.mpr ⟨g, hg, by rw [if_neg hne]⟩
  · rw [if_neg ha]
    exact List.mem_append.mpr (Or.inl hg)

theorem insertFund_mem_self (acc : List Fund) (f : Fund) : f ∈ insertFund acc f := by
  rw [insertFund]
  by_cases ha : acc.any (fun q => q.id = f.id)
  · rw [if_pos ha]
    rw [List.any_eq_true] at ha
    obtain ⟨q, hq, he⟩ := ha
    have he2 : q.id = f.id := by simpa using he
    exact List.mem_map.mpr ⟨q, hq, by rw [if_pos he2]⟩
  · rw [if_neg ha]
    exact List.mem_append.mpr (Or.inr (List.mem_singleton.mpr rfl))

theorem lastWithId_eq_none (l : List Fund) (k : String) :
    lastWithId l k = none ↔ k ∉ fundIds l := by
  induction l with
  | nil => simp [lastWithId, fundIds]
  | cons f fs ih =>
    cases hl : lastWithId fs k with
    | some g =>
      have hin : k ∈ fundIds fs := by
        by_contra hni
        rw [← ih] at hni
        exact absurd hl (hni ▸ by simp)
      simp only [lastWithId, hl]
      simp only [fundIds, List.map_cons, List.mem_cons]
      constructor
      · intro h; exact absurd h (by simp)
      · intro h; exact absurd (Or.inr hin) h
    | none =>
      have hni : k ∉ fundIds fs := ih.mp hl
      simp only [lastWithId, hl]
      simp only [fundIds, List.map_cons, List.mem_cons]
      by_cases hc : f.id = k
      · simp only [if_pos hc]
        constructor
        · intro h; exact absurd h (by simp)
        · intro h; exact absurd (Or.inl hc.symm) h
      · simp only [if_neg hc]
        constructor
        · intro _
          rintro (he | hm)
          · exact hc he.symm
          · exact hni hm
        · intro _; trivial

theorem lastWithId_append (l1 l2 : List Fund) (k : String) :
    lastWithId (l1 ++ l2) k =
      match lastWithId l2 k with
      | some g => some g
      | none => lastWithId l1 k := by
  induction l1 with
  | nil => cases h2 : lastWithId l2 k <;> simp [lastWithId, h2]
  | cons f fs ih =>
    rw [List.cons_append]
    show (match lastWithId (fs ++ l2) k with
          | some g => some g
          | none => if f.id = k then some f else none) = _
    rw [ih]
    cases h2 : lastWithId l2 k with
    | some g => simp
    | none =>
      cases hf : lastWithId fs k with
      | some g => simp [lastWithId, hf]
      | none => simp [lastWithId, hf]

theorem foldl_insertFund_mem_last (l : List Fund) (g : Fund) :
    ∀ acc, g ∈ l.foldl insertFund acc →
      lastWithId l g.id = some g ∨ (lastWithId l g.id = none ∧ g ∈ acc) := by
  induction l with
  | nil => intro acc h; exact Or.inr ⟨rfl, h⟩
  | cons f fs ih =>
    intro acc h
    rw [List.foldl_cons] at h
    rcases ih _ h with hl | ⟨hnone, hmem⟩
    · left
      simp only [lastWithId, hl]
    · rcases insertFund_mem_cases _ _ _ hmem with rfl | ⟨hacc, hne⟩
      · left
        simp [lastWithId, hnone]
      · right
        refine ⟨?_, hacc⟩
        simp only [lastWithId, hnone]
        rw [if_neg (fun he => hne he.symm)]

theorem foldl_insertFund_keep (l : List Fund) (g : Fund) :
    ∀ acc, g ∈ acc → g.id ∉ fundIds l → g ∈ l.foldl insertFund acc := by
  induction l with
  | nil => intro acc hg _; exact hg
  | cons f fs ih =>
    intro acc hg hni
    have hne : g.id ≠ f.id := by
      intro he
      exact hni (by simp [fundIds, he])
    have hni2 : g.id ∉ fundIds fs := by
      intro hm
      refine hni ?_
      simp only [fundIds, List.map_cons, List.mem_cons]
      exact Or.inr (by simpa [fundIds] using hm)
    exact ih _ (insertFund_mem_keep _ _ _ hg hne) hni2

theorem foldl_insertFund_mem_of_last (l : List Fund) (k : String) (x : Fund)
    (h : lastWithId l k = some x) : ∀ acc, x ∈ l.foldl insertFund acc := by
  induction l with
  | nil => simp [lastWithId] at h
  | cons f fs ih =>
    intro acc
    rw [List.foldl_cons]
    cases hl : lastWithId fs k with
    | some g =>
      have hgx : g = x := by
        simp only [lastWithId, hl, Option.some.injEq] at h
        exact h
      exact hgx ▸ ih (hgx ▸ hl) _
    | none =>
      simp only [lastWithId, hl] at h
      by_cases hc : f.id = k
      · rw [if_pos hc] at h
        have hx : f = x := by simpa using h
        subst hx
        have hnm : f.id ∉ fundIds fs := by
          rw [← lastWithId_eq_none]
          rw [hc]
          exact hl
        exact foldl_insertFund_keep fs f _ (insertFund_mem_self acc f) hnm
      · rw [if_neg hc] at h
        exact absurd h (by simp)

theorem foldl_insertFund_fresh (l : List Fund) :
    ∀ acc, (fundIds l).Nodup → (∀ k, k ∈ fundIds l → k ∉ fundIds acc) →
      l.foldl insertFund acc = acc ++ l := by
  induction l with
  | nil => intro acc _ _; simp
  | cons f fs ih =>
    intro acc hnd hdisj
    rw [List.foldl_cons]
    have hfa : ¬ acc.any (fun g => g.id = f.id) = true := by
      intro ha
      exact hdisj f.id (by simp [fundIds]) ((fund_any_iff _ _).mp ha)
    rw [insertFund, if_neg hfa]
    have hnd2 : (fundIds fs).Nodup := by
      simp only [fundIds, List.map_cons, List.nodup_cons] at hnd
      exact hnd.2
    have hhd : f.id ∉ fundIds fs := by
      simp only [fundIds, List.map_cons, List.nodup_cons] at hnd
      exact hnd.1
    rw [ih (acc ++ [f]) hnd2 ?_]
    · simp
    · intro k hk
      simp only [fundIds, List.map_append, List.mem_append]
      rintro (hka | hkf)
      · have hkcons : k ∈ fundIds (f :: fs) := by
          simp only [fundIds, List.map_cons, List.mem_cons]
          exact Or.inr (by simpa [fundIds] using hk)
        exact hdisj k hkcons (by simpa [fundIds] using hka)
      · have hkf2 : k = f.id := by simpa using hkf
        exact hhd (hkf2 ▸ hk)

theorem foldl_insertFund_updateAll (l : List Fund) :
    ∀ m, (∀ f, f ∈ l → f.id ∈ fundIds m) → l.foldl insertFund m = updateAll m l := by
  induction l with
  | nil =>
    intro m _
    simp only [List.foldl_nil, updateAll, lastWithId]
    exact (List.map_id m).symm
  | cons f fs ih =>
    intro m hmem
    rw [List.foldl_cons]
    have hf : f.id ∈ fundIds m := hmem f (List.mem_cons_self f fs)
    have hany : m.any (fun g => g.id = f.id) = true := (fund_any_iff _ _).mpr hf
    rw [insertFund, if_pos hany]
    have hids : fundIds (m.map (fun g => if g.id = f.id then f else g)) = fundIds m := by
      rw [fundIds, fundIds, List.map_map]
      apply List.map_congr_left
      intro g hg
      by_cases hc : g.id = f.id <;> simp [hc]
    have hmem2 : ∀ q, q ∈ fs →
        q.id ∈ fundIds (m.map (fun g => if g.id = f.id then f else g)) := by
      intro q hq
      rw [hids]
      exact hmem q (List.mem_cons_of_mem _ hq)
    rw [ih _ hmem2]
    rw [updateAll, updateAll, List.map_map]
    apply List.map_congr_left
    intro g hg
    simp only [Function.comp]
    by_cases hc : g.id = f.id
    · rw [if_pos hc, hc]
      cases hl : lastWithId fs f.id with
      | some x => simp [lastWithId, hl]
      | none => simp [lastWithId, hl]
    · rw [if_neg hc]
      cases hl : lastWithId fs g.id with
      | some x => simp [lastWithId, hl]
      | none => simp [lastWithId, hl, Ne.symm hc]

theorem mergeFunds_nodup (E F : List Fund) : (fundIds (mergeFunds E F)).Nodup :=
  foldl_insertFund_nodup _ [] (by simp [fundIds])

theorem mergeFunds_mem_last (E F : List Fund) (g : Fund)
    (hg : g ∈ mergeFunds E F) (hid : g.id ∈ fundIds F) :
    lastWithId F g.id = some g := by
  rcases foldl_insertFund_mem_last (E ++ F) g [] hg with hl | ⟨_, hmem⟩
  · rw [lastWithId_append] at hl
    cases hf : lastWithId F g.id with
    | some x =>
      rw [hf] at hl
      exact hl
    | none => exact absurd hid ((lastWithId_eq_none F g.id).mp hf)
  · simp at hmem

theorem mergeFunds_idem (E F : List Fund) :
    mergeFunds (mergeFunds E F) F = mergeFunds E F := by
  have hnd : (fundIds (mergeFunds E F)).Nodup := mergeFunds_nodup E F
  rw [mergeFunds, List.foldl_append,
    foldl_insertFund_fresh (mergeFunds E F) [] hnd (by simp [fundIds]),
    List.nil_append]
  rw [foldl_insertFund_updateAll F (mergeFunds E F) ?_]
  · rw [updateAll]
    have hpt : ∀ g, g ∈ mergeFunds E F →
        (fun g => match lastWithId F g.id with
                  | some x => x
                  | none => g) g = id g := by
      intro g hg
      simp only [id]
      cases hf : lastWithId F g.id with
      | some x =>
        have hid : g.id ∈ fundIds F := by
          by_contra hni
          rw [← lastWithId_eq_none] at hni
          rw [hf] at hni
          exact absurd hni (by simp)
        have hlast := mergeFunds_mem_last E F g hg hid
        rw [hlast] at hf
        exact (Option.some.inj hf).symm
      | none => rfl
    rw [List.map_congr_left hpt, List.map_id]
  · intro f hf
    rw [mergeFunds, foldl_insertFund_ids_mem]
    right
    simp only [fundIds, List.map_append, List.mem_append]
    exact Or.inr (List.mem_map.mpr ⟨f, hf, rfl⟩)

/-- Claim C5: `loadUserFunds` merges the fetched funds into the local
collection keyed by id: a fetched fund overwrites a same-id local fund, local
funds absent from the response are kept, the result never holds two funds
with the same id, and a second call with identical remote data returns the
same collection (idempotence). -/
theorem loadUserFunds_merge_spec (s : AppState) (uid : String) (F : List Fund)
    (hu : uid ≠ "") (hnd : (fundIds s.funds).Nodup) :
    (loadUserFunds s uid (some F)).funds = mergeFunds s.funds F
  ∧ (fundIds (loadUserFunds s uid (some F)).funds).Nodup
  ∧ (∀ g, g ∈ (loadUserFunds s uid (some F)).funds → g.id ∈ fundIds F →
      lastWithId F g.id = some g)
  ∧ (∀ f x, f ∈ F → lastWithId F f.id = some x →
      x ∈ (loadUserFunds s uid (some F)).funds)
  ∧ (∀ g, g ∈ s.funds → g.id ∉ fundIds F → g ∈ (loadUserFunds s uid (some F)).funds)
  ∧ (loadUserFunds (loadUserFunds s uid (some F)) uid (some F)).funds
      = (loadUserFunds s uid (some F)).funds := by
  have hfunds : (loadUserFunds s uid (some F)).funds = mergeFunds s.funds F := by
    simp [loadUserFunds, hu]
  have hfunds2 : (loadUserFunds (loadUserFunds s uid (some F)) uid (some F)).funds
      = mergeFunds (mergeFunds s.funds F) F := by
    simp [loadUserFunds, hu]
  refine ⟨hfunds, ?_, ?_, ?_, ?_, ?_⟩
  · rw [hfunds]; exact mergeFunds_nodup _ _
  · intro g hg hid
    rw [hfunds] at hg
    exact mergeFunds_mem_last _ _ _ hg hid
  · intro f x hf hlast
    rw [hfunds]
    have hEF : lastWithId (s.funds ++ F) f.id = some x := by
      rw [lastWithId_append, hlast]
    exact foldl_insertFund_mem_of_last _ _ _ hEF []
  · intro g hg hni
    rw [hfunds, mergeFunds, List.foldl_append,
      foldl_insertFund_fresh s.funds [] hnd (by simp [fundIds]), List.nil_append]
    exact foldl_insertFund_keep F g s.funds hg hni
  · rw [hfunds2, hfunds]
    exact mergeFunds_idem _ _

/-- Witness for Claim C5 at a concrete signed-in state: a stale local fund is
overwritten, the untouched local fund is kept, and ids stay unique. -/
theorem loadUserFunds_merge_spec_witness :
    (loadUserFunds c5State "userA" (some [fundF1])).funds = mergeFunds c5State.funds [fundF1]
  ∧ (fundIds (loadUserFunds c5State "userA" (some [fundF1])).funds).Nodup
  ∧ (loadUserFunds (loadUserFunds c5State "userA" (some [fundF1])) "userA"
      (some [fundF1])).funds = (loadUserFunds c5State "userA" (some [fundF1])).funds :=
  ⟨(loadUserFunds_merge_spec c5State "userA" [fundF1] (by decide) (by decide)).1,
   (loadUserFunds_merge_spec c5State "userA" [fundF1] (by decide) (by decide)).2.1,
   (loadUserFunds_merge_spec c5State "userA" [fundF1] (by decide) (by decide)).2.2.2.2.2⟩

/-! ## Helper lemmas: the transaction sort -/

theorem insertByEffDate_perm (t : Transaction) (l : List Transaction) :
    List.Perm (insertByEffDate t l) (t :: l) := by
  induction l with
  | nil => exact List.Perm.refl _
  | cons u us ih =>
    by_cases h : effDate t < effDate u
    · simp only [insertByEffDate, if_pos h]
      exact (ih.cons u).trans (List.Perm.swap t u us)
    · simp only [insertByEffDate, if_neg h]
      exact List.Perm.refl _

theorem sortByEffDateDesc_perm (l : List Transaction) :
    List.Perm (sortByEffDateDesc l) l := by
  induction l with
  | nil => exact List.Perm.refl _
  | cons t ts ih =>
    simp only [sortByEffDateDesc, List.foldr_cons]
    exact (insertByEffDate_perm t _).trans (ih.cons t)

theorem insertByEffDate_sorted (t : Transaction) (l : List Transaction)
    (h : l.Pairwise (fun a b => effDate b ≤ effDate a)) :
    (insertByEffDate t l).Pairwise (fun a b => effDate b ≤ effDate a) := by
  induction l with
  | nil => simp [insertByEffDate]
  | cons u us ih =>
    rw [List.pairwise_cons] at h
    by_cases hlt : effDate t < effDate u
    · simp only [insertByEffDate, if_pos hlt]
      rw [List.pairwise_cons]
      constructor
      · intro b hb
        rcases List.mem_cons.mp ((insertByEffDate_perm t us).mem_iff.mp hb) with rfl | hbu
        · exact le_of_lt hlt
        · exact h.1 b hbu
      · exact ih h.2
    · simp only [insertByEffDate, if_neg hlt]
      rw [List.pairwise_cons]
      constructor
      · intro b hb
        rcases List.mem_cons.mp hb with rfl | hbu
        · exact not_lt.mp hlt
        · exact le_trans (h.1 b hbu) (not_lt.mp hlt)
      · exact List.pairwise_cons.mpr h

theorem sortByEffDateDesc_sorted (l : List Transaction) :
    (sortByEffDateDesc l).Pairwise (fun a b => effDate b ≤ effDate a) := by
  induction l with
  | nil => simp [sortByEffDateDesc]
  | cons t ts ih =>
    simp only [sortByEffDateDesc, List.foldr_cons]
    exact insertByEffDate_sorted t _ ih

theorem loadFundTransactions_eq_sort (s : AppState) (fid : String)
    (fetched : List RawTransaction) (now : Int) (hf : fid ≠ "") :
    (loadFundTransactions s fid fetched now).transactions
      = sortByEffDateDesc (fetched.map (processTransaction fid now)) := by
  by_cases hemp : fetched = []
  · subst hemp
    simp [loadFundTransactions, hf, sortByEffDateDesc]
  · simp [loadFundTransactions, hf, hemp]

/-- Claim C7 (amended): for a non-empty fund id, `loadFundTransactions`
replaces the entire local transaction collection (non-additive, independent
of the prior state) with the fetched transactions normalized to safe
defaults, sorted descending by effective date; transactions with equal
effective dates keep their fetched order (stable sort) rather than being
reordered by createdAt. -/
theorem loadFundTransactions_spec (s1 s2 : AppState) (fid : String)
    (fetched : List RawTransaction) (now : Int) (hf : fid ≠ "") :
    (loadFundTransactions s1 fid fetched now).transactions
        = (loadFundTransactions s2 fid fetched now).transactions
  ∧ List.Perm (loadFundTransactions s1 fid fetched now).transactions
      (fetched.map (processTransaction fid now))
  ∧ (loadFundTransactions s1 fid fetched now).transactions.Pairwise
      (fun a b => effDate b ≤ effDate a)
  ∧ (∀ t : RawTransaction, t.description = none ∨ t.description = some "" →
      (processTransaction fid now t).description = "Giao dịch")
  ∧ (∀ t : RawTransaction, t.amount = none → (processTransaction fid now t).amount = 0)
  ∧ (∀ t : RawTransaction, t.splits = none → (processTransaction fid now t).splits = [])
  ∧ (∀ t : RawTransaction, t.createdAt = none →
      (processTransaction fid now t).createdAt = now)
  ∧ (∀ t : RawTransaction, t.date = none → t.createdAt = none →
      (processTransaction fid now t).date = now) := by
  refine ⟨?_, ?_, ?_, ?_, ?_, ?_, ?_, ?_⟩
  · rw [loadFundTransactions_eq_sort s1 fid fetched now hf,
      loadFundTransactions_eq_sort s2 fid fetched now hf]
  · rw [loadFundTransactions_eq_sort s1 fid fetched now hf]
    exact sortByEffDateDesc_perm _
  · rw [loadFundTransactions_eq_sort s1 fid fetched now hf]
    exact sortByEffDateDesc_sorted _
  · rintro t (hd | hd) <;> simp [processTransaction, jsOrStr, hd]
  · intro t hd
    simp [processTransaction, hd]
  · intro t hd
    simp [processTransaction, hd]
  · intro t hd
    simp [processTransaction, jsOrNum, hd]
  · intro t hd hc
    simp [processTransaction, jsOrNum, hd, hc]

/-- Witness for Claim C7 at a concrete fetched list. -/
theorem loadFundTransactions_spec_witness :
    List.Perm (loadFundTransactions emptyState "f1" [c7raw1, c7raw2] 100).transactions
      ([c7raw1, c7raw2].map (processTransaction "f1" 100))
  ∧ (loadFundTransactions emptyState "f1" [c7raw1, c7raw2] 100).transactions.Pairwise
      (fun a b => effDate b ≤ effDate a) :=
  ⟨(loadFundTransactions_spec emptyState emptyState "f1" [c7raw1, c7raw2] 100
      (by decide)).2.1,
   (loadFundTransactions_spec emptyState emptyState "f1" [c7raw1, c7raw2] 100
      (by decide)).2.2.1⟩

/-- Counterexample for Claim C7 as stated: two fetched transactions with
equal dates but ascending creation times keep their fetched order, not the
claimed descending-createdAt order; and with an empty fund id the prior local
collection is left in place rather than replaced by the fetched data. -/
theorem loadFundTransactions_claim_cex :
    (loadFundTransactions emptyState "f1" [c7raw1, c7raw2] 100).transactions.map
        Transaction.createdAt = [1, 2]
  ∧ ¬ ((loadFundTransactions emptyState "f1" [c7raw1, c7raw2] 100).transactions.map
        Transaction.createdAt = [2, 1])
  ∧ (loadFundTransactions c7State "" [c7raw1] 100).transactions = [exampleTx] := by
  exact ⟨by decide, by decide, by decide⟩

/-! ## Helper lemmas: the user cache batch load -/

theorem user_any_iff (m : List (String × User)) (k : String) :
    m.any (fun p => p.1 = k) = true ↔ k ∈ m.map Prod.fst := by
  rw [List.any_eq_true]
  constructor
  · rintro ⟨p, hp, he⟩
    exact List.mem_map.mpr ⟨p, hp, by simpa using he⟩
  · intro hm
    obtain ⟨p, hp, he⟩ := List.mem_map.mp hm
    exact ⟨p, hp, by simpa using he⟩

theorem lookupUser_isSome (m : List (String × User)) (k : String) :
    (lookupUser m k).isSome = m.any (fun p => p.1 = k) := by
  induction m with
  | nil => rfl
  | cons p ps ih => by_cases h : p.1 = k <;> simp [lookupUser, h, ih]

theorem lookupUser_eq_none (m : List (String × User)) (k : String) :
    lookupUser m k = none ↔ k ∉ m.map Prod.fst := by
  rw [← user_any_iff, ← lookupUser_isSome]
  cases lookupUser m k <;> simp

theorem lookupUser_map_set (m : List (String × User)) (k : String) (v : User) (k2 : String) :
    lookupUser (m.map (fun p => if p.1 = k then (k, v) else p)) k2 =
      if k = k2 then (lookupUser m k2).map (fun _ => v)
      else lookupUser m k2 := by
  induction m with
  | nil => by_cases h : k = k2 <;> simp [lookupUser, h]
  | cons p ps ih =>
    by_cases hpu : p.1 = k
    · by_cases hpk : p.1 = k2
      · have hkk : k = k2 := hpu.symm.trans hpk
        simp [lookupUser, hpu, hpk, hkk]
      · have hkk : k ≠ k2 := fun he => hpk (hpu.trans he)
        simp [lookupUser, hpu, hpk, hkk, ih, Ne.symm hkk]
    · by_cases hpk : p.1 = k2
      · have hkk : k ≠ k2 := fun he => hpu (hpk.trans he.symm)
        simp [lookupUser, hpu, hpk, hkk, Ne.symm hkk]
      · simp [lookupUser, hpu, hpk, ih]

theorem lookupUser_append_some (l1 l2 : List (String × User)) (k : String) (v : User)
    (h : lookupUser l1 k = some v) : lookupUser (l1 ++ l2) k = some v := by
  induction l1 with
  | nil => simp [lookupUser] at h
  | cons p ps ih =>
    by_cases hp : p.1 = k
    · simp_all [lookupUser, hp]
    · simp only [List.cons_append, lookupUser, hp, if_false] at h ⊢
      exact ih h

theorem lookupUser_append_none (l1 l2 : List (String × User)) (k : String)
    (h : lookupUser l1 k = none) : lookupUser (l1 ++ l2) k = lookupUser l2 k := by
  induction l1 with
  | nil => simp
  | cons p ps ih =>
    by_cases hp : p.1 = k
    · simp [lookupUser, hp] at h
    · simp only [List.cons_append, lookupUser, hp, if_false] at h ⊢
      exact ih h

theorem setUser_lookup (m : List (String × User)) (k : String) (v : User) (k2 : String) :
    lookupUser (setUser m k v) k2 = if k = k2 then some v else lookupUser m k2 := by
  by_cases h : m.any (fun p => p.1 = k)
  · rw [setUser, if_pos h, lookupUser_map_set]
    by_cases hk : k = k2
    · subst hk
      have hs : (lookupUser m k).isSome := by
        rw [lookupUser_isSome]; exact h
      obtain ⟨w, hw⟩ := Option.isSome_iff_exists.mp hs
      simp [hw]
    · simp [hk]
  · rw [setUser, if_neg h]
    have hn : lookupUser m k = none := by
      rw [lookupUser_eq_none, ← user_any_iff]
      simpa using h
    by_cases hk : k = k2
    · subst hk
      rw [lookupUser_append_none _ _ _ hn]
      simp [lookupUser]
    · cases ho : lookupUser m k2 with
      | some w =>
        rw [lookupUser_append_some _ _ _ _ ho]
        simp [hk, ho]
      | none =>
        rw [lookupUser_append_none _ _ _ ho]
        simp [lookupUser, hk, ho]

theorem foldl_setUser_lookup (rs : List (String × User)) :
    ∀ (m : List (String × User)) (k : String),
      lookupUser (rs.foldl (fun m p => setUser m p.1 p.2) m) k =
        match lastValueU rs k with
        | some v => some v
        | none => lookupUser m k := by
  induction rs with
  | nil => intro m k; rfl
  | cons p ps ih =>
    intro m k
    rw [List.foldl_cons, ih]
    cases hl : lastValueU ps k with
    | some v => simp [lastValueU, hl]
    | none =>
      simp only [lastValueU, hl, setUser_lookup]
      by_cases hp : p.1 = k <;> simp [hp]

theorem lastValueU_eq_none (rs : List (String × User)) (k : String) :
    lastValueU rs k = none ↔ k ∉ rs.map Prod.fst := by
  induction rs with
  | nil => simp [lastValueU]
  | cons p ps ih =>
    cases hl : lastValueU ps k with
    | some v =>
      have hin : k ∈ ps.map Prod.fst := by
        by_contra hni
        rw [← ih] at hni
        exact absurd hl (hni ▸ by simp)
      simp only [lastValueU, hl, List.map_cons, List.mem_cons]
      constructor
      · intro h; exact absurd h (by simp)
      · intro h; exact absurd (Or.inr hin) h
    | none =>
      have hni : k ∉ ps.map Prod.fst := ih.mp hl
      simp only [lastValueU, hl, List.map_cons, List.mem_cons]
      by_cases hc : p.1 = k
      · simp only [if_pos hc]
        constructor
        · intro h; exact absurd h (by simp)
        · intro h; exact absurd (Or.inl hc.symm) h
      · simp only [if_neg hc]
        constructor
        · intro _
          rintro (he | hm)
          · exact hc he.symm
          · exact hni hm
        · intro _; trivial

theorem dedupFirst_aux_mem (l : List String) :
    ∀ (acc : List String) (x : String),
      x ∈ l.foldl (fun acc y => if acc.contains y then acc else acc ++ [y]) acc
        ↔ x ∈ acc ∨ x ∈ l := by
  induction l with
  | nil => intro acc x; simp
  | cons y ys ih =>
    intro acc x
    rw [List.foldl_cons]
    by_cases hc : acc.contains y
    · rw [if_pos hc, ih]
      constructor
      · rintro (hx | hx)
        · exact Or.inl hx
        · exact Or.inr (List.mem_cons_of_mem _ hx)
      · rintro (hx | hx)
        · exact Or.inl hx
        · rcases List.mem_cons.mp hx with rfl | hx2
          · exact Or.inl (by simpa using hc)
          · exact Or.inr hx2
    · rw [if_neg hc, ih]
      simp only [List.mem_append, List.mem_singleton, List.mem_cons]
      tauto

theorem dedupFirst_mem (l : List String) (x : String) : x ∈ dedupFirst l ↔ x ∈ l := by
  rw [dedupFirst, dedupFirst_aux_mem]
  simp

theorem dedupFirst_aux_nodup (l : List String) :
    ∀ acc : List String, acc.Nodup →
      (l.foldl (fun acc y => if acc.contains y then acc else acc ++ [y]) acc).Nodup := by
  induction l with
  | nil => intro acc h; exact h
  | cons y ys ih =>
    intro acc h
    rw [List.foldl_cons]
    by_cases hc : acc.contains y
    · rw [if_pos hc]; exact ih _ h
    · rw [if_neg hc]
      apply ih
      refine List.Nodup.append h (by simp) ?_
      intro x hx hy
      have hxy : x = y := by simpa using hy
      exact (by simpa using hc : y ∉ acc) (hxy ▸ hx)

theorem dedupFirst_nodup (l : List String) : (dedupFirst l).Nodup :=
  dedupFirst_aux_nodup l [] (by simp)

theorem filteredIds_nodup (s : AppState) (userIds : List String) :
    (filteredIds s userIds).Nodup :=
  (dedupFirst_nodup userIds).filter _

theorem filteredIds_mem (s : AppState) (userIds : List String) (id : String) :
    id ∈ filteredIds s userIds ↔
      id ∈ userIds ∧ id ≠ ""
        ∧ (∀ cu, s.currentUser = some cu → id ≠ cu.id)
        ∧ lookupUser s.users id = none := by
  rw [filteredIds, List.mem_filter, dedupFirst_mem]
  cases hcu : s.currentUser with
  | none =>
    simp only [hcu, Bool.and_eq_true, Bool.not_eq_true', beq_eq_false_iff_ne,
      Option.isNone_iff_eq_none, Bool.true_and]
    constructor
    · rintro ⟨h1, ⟨h2, -⟩, h3⟩
      exact ⟨h1, h2, fun cu hc => absurd hc (by simp), h3⟩
    · rintro ⟨h1, h2, -, h3⟩
      exact ⟨h1, ⟨h2, trivial⟩, h3⟩
  | some cu =>
    simp only [hcu, Bool.and_eq_true, Bool.not_eq_true', beq_eq_false_iff_ne,
      Option.isNone_iff_eq_none]
    constructor
    · rintro ⟨h1, ⟨h2, h3⟩, h4⟩
      refine ⟨h1, h2, ?_, h4⟩
      intro cu2 hc2
      injection hc2 with he2
      exact he2 ▸ h3
    · rintro ⟨h1, h2, h3, h4⟩
      exact ⟨h1, ⟨h2, h3 cu rfl⟩, h4⟩

theorem loadUsers_users_lookup (s : AppState) (remote : String → Option User)
    (userIds : List String) (id : String) :
    lookupUser (loadUsers s remote userIds).1.users id =
      match lastValueU (usersResults s remote userIds) id with
      | some v => some v
      | none => lookupUser s.users id := by
  by_cases h0 : userIds = []
  · subst h0
    have hres : usersResults s remote [] = [] := by
      simp [usersResults, filteredIds, dedupFirst]
    simp [loadUsers, hres, lastValueU]
  · by_cases h1 : filteredIds s userIds = []
    · have hres : usersResults s remote userIds = [] := by
        simp [usersResults, h1]
      simp [loadUsers, h0, h1, hres, lastValueU]
    · simp only [loadUsers, if_neg h0, if_neg h1]
      have hfold := foldl_setUser_lookup ((filteredIds s userIds).filterMap
        (fun i => (remote i).map (fun u => (i, u)))) s.users id
      simpa [usersResults] using hfold

/-- Claim C9 (amended): for every non-empty id list, `loadUsers`
de-duplicates the input and excludes empty ids, the current identity's id and
already cached ids; if the filtered set is empty it resolves with no remote
fetch and an unchanged state; otherwise it issues exactly one batched request
for the filtered ids and merges the results into the cache, so afterward the
cache holds an entry for every requested id that existed remotely except the
current identity's id and empty ids, previously cached entries are kept
unchanged, and the current identity's cache entry is never overwritten. -/
theorem loadUsers_spec (s : AppState) (remote : String → Option User)
    (userIds : List String) (hne : userIds ≠ []) :
    (filteredIds s userIds = [] → loadUsers s remote userIds = (s, none))
  ∧ (filteredIds s userIds ≠ [] →
      (loadUsers s remote userIds).2 = some (filteredIds s userIds))
  ∧ (filteredIds s userIds).Nodup
  ∧ (∀ id, id ∈ filteredIds s userIds →
      id ≠ "" ∧ (∀ cu, s.currentUser = some cu → id ≠ cu.id)
        ∧ lookupUser s.users id = none)
  ∧ (∀ id, id ∈ userIds → id ≠ "" →
      (∀ cu, s.currentUser = some cu → id ≠ cu.id) →
      (remote id).isSome →
      (lookupUser (loadUsers s remote userIds).1.users id).isSome)
  ∧ (∀ id v, lookupUser s.users id = some v →
      lookupUser (loadUsers s remote userIds).1.users id = some v)
  ∧ (∀ cu, s.currentUser = some cu →
      lookupUser (loadUsers s remote userIds).1.users cu.id
        = lookupUser s.users cu.id) := by
  have hkeys : ∀ k, k ∈ (usersResults s remote userIds).map Prod.fst →
      k ∈ filteredIds s userIds := by
    intro k hk
    obtain ⟨p, hp, he⟩ := List.mem_map.mp hk
    unfold usersResults at hp
    obtain ⟨i, hi, hip⟩ := List.mem_filterMap.mp hp
    rcases hmap : remote i with _ | u
    · rw [hmap] at hip
      simp at hip
    · rw [hmap] at hip
      have hpi : (i, u) = p := by simpa using hip
      have hik : i = k := by rw [← hpi] at he; exact he
      exact hik ▸ hi
  refine ⟨?_, ?_, filteredIds_nodup s userIds, ?_, ?_, ?_, ?_⟩
  · intro h1
    simp [loadUsers, hne, h1]
  · intro h1
    simp [loadUsers, hne, h1]
  · intro id hid
    have h := (filteredIds_mem s userIds id).mp hid
    exact ⟨h.2.1, h.2.2.1, h.2.2.2⟩
  · intro id hid hidne hcu hrs
    rw [loadUsers_users_lookup]
    cases hl : lastValueU (usersResults s remote userIds) id with
    | some v => simp
    | none =>
      have hnk := (lastValueU_eq_none _ _).mp hl
      cases hc : lookupUser s.users id with
      | some v => simp [hc]
      | none =>
        exfalso
        apply hnk
        obtain ⟨u, hu⟩ := Option.isSome_iff_exists.mp hrs
        refine List.mem_map.mpr ⟨(id, u), ?_, rfl⟩
        unfold usersResults
        refine List.mem_filterMap.mpr ⟨id, ?_, by rw [hu]; rfl⟩
        exact (filteredIds_mem s userIds id).mpr ⟨hid, hidne, hcu, hc⟩
  · intro id v hv
    rw [loadUsers_users_lookup]
    have hni : id ∉ (usersResults s remote userIds).map Prod.fst := by
      intro hk
      have hmem := (filteredIds_mem s userIds id).mp (hkeys id hk)
      rw [hmem.2.2.2] at hv
      exact absurd hv (by simp)
    rw [(lastValueU_eq_none _ _).mpr hni]
    exact hv
  · intro cu hcu
    rw [loadUsers_users_lookup]
    have hni : cu.id ∉ (usersResults s remote userIds).map Prod.fst := by
      intro hk
      have hmem := (filteredIds_mem s userIds cu.id).mp (hkeys cu.id hk)
      exact hmem.2.2.1 cu hcu rfl
    rw [(lastValueU_eq_none _ _).mpr hni]

/-- Witness for Claim C9: batch-loading a duplicated remote id fills the
cache with its entry. -/
theorem loadUsers_spec_witness :
    (lookupUser (loadUsers c9State remoteAB ["userB", "userB"]).1.users "userB").isSome :=
  (loadUsers_spec c9State remoteAB ["userB", "userB"] (by decide)).2.2.2.2.1
    "userB" (by decide) (by decide)
    (fun cu hcu => by
      have h2 : some userA = some cu := hcu
      injection h2 with h
      rw [← h]
      decide)
    (by decide)

/-- Counterexample for Claim C9 as stated: requesting exactly the current
identity's id makes no remote fetch and adds no cache entry, although that
id exists remotely, so the cache does not afterward contain an entry for
every requested id that existed remotely. -/
theorem loadUsers_claim_cex :
    (loadUsers c9State remoteOnlyA ["userA"]).2 = none
  ∧ lookupUser (loadUsers c9State remoteOnlyA ["userA"]).1.users "userA" = none
  ∧ remoteOnlyA "userA" = some userA :=
  ⟨by decide, by decide, by decide⟩
